import Mathlib

/-!
Verification development for the decimalfp fixed-point decimal engine.

The Python binding layer (src/decimalfp/_cdecimalfp.c) and the format-spec
parser (src/decimalfp/libfpdec/format_spec.c) are embedded from their C
sources.  The libfpdec arithmetic kernels (fpdec_add, fpdec_mul,
fpdec_divmod, fpdec_div, fpdec_adjusted, fpdec_as_ascii_literal,
fpdec_from_unicode_literal) live in libfpdec/fpdec.c, which is not part of
the sources at hand; those are modelled from the specification and marked
as such in their doc comments.

A decimal value is sign · coeff · 10^(-dec_prec) (spec section 1).  The
two-tier internal representation (128-bit shifted int vs base-10^19 digit
array) is abstracted into the pair (coeff, dec_prec), which both tiers
denote; the claims under study depend only on this denotation.
-/

/-- Unified decimal value: sign (-1, 0 or +1), non-negative coefficient and
declared number of fractional digits.  Mathematical value is
sign · coeff · 10^(-dec_prec). -/
structure Fpdec where
  sign : ℤ
  coeff : ℕ
  dec_prec : ℕ
deriving DecidableEq

/-- Representation invariants of spec section 3: the sign is -1, 0 or +1 and
is 0 exactly for the zero value. -/
def Fpdec.Wf (f : Fpdec) : Prop :=
  (f.sign = 0 ∨ f.sign = 1 ∨ f.sign = -1) ∧ (f.sign = 0 ↔ f.coeff = 0)

instance (f : Fpdec) : Decidable f.Wf := by
  unfold Fpdec.Wf; infer_instance

/-- Signed integer numerator sign · coeff of the value at scale 10^dec_prec. -/
def Fpdec.sgnNum (f : Fpdec) : ℤ := f.sign * f.coeff

/-- Mathematical value of a decimal record (spec section 3, invariant 5). -/
def Fpdec.val (f : Fpdec) : ℚ := (f.sgnNum : ℚ) / 10 ^ f.dec_prec

/-- Build a decimal record from a signed scaled numerator: the value
n · 10^(-p) stored with separated sign and magnitude. -/
def Fpdec.ofScaled (n : ℤ) (p : ℕ) : Fpdec := ⟨n.sign, n.natAbs, p⟩

theorem Fpdec.ofScaled_wf (n : ℤ) (p : ℕ) : (Fpdec.ofScaled n p).Wf := by
  unfold Fpdec.ofScaled Fpdec.Wf
  constructor
  · rcases Int.lt_trichotomy n 0 with h | h | h
    · exact Or.inr (Or.inr (by simp [Int.sign_eq_neg_one_iff_neg.mpr h]))
    · exact Or.inl (by simp [h])
    · exact Or.inr (Or.inl (by simp [Int.sign_eq_one_iff_pos.mpr h]))
  · simp [Int.sign_eq_zero_iff_zero, Int.natAbs_eq_zero]

theorem Fpdec.sgnNum_ofScaled (n : ℤ) (p : ℕ) :
    (Fpdec.ofScaled n p).sgnNum = n := by
  unfold Fpdec.ofScaled Fpdec.sgnNum
  simpa using Int.sign_mul_natAbs n

theorem Fpdec.val_ofScaled (n : ℤ) (p : ℕ) :
    (Fpdec.ofScaled n p).val = (n : ℚ) / 10 ^ p := by
  unfold Fpdec.val
  rw [Fpdec.sgnNum_ofScaled]
  rfl

theorem Fpdec.dec_prec_ofScaled (n : ℤ) (p : ℕ) :
    (Fpdec.ofScaled n p).dec_prec = p := rfl

/-- Rescaling identity: a numerator at precision p, lifted to a common
precision P ≥ p, denotes the same rational. -/
theorem scaled_cast_le (n : ℤ) (p P : ℕ) (h : p ≤ P) :
    ((n * 10 ^ (P - p) : ℤ) : ℚ) / 10 ^ P = (n : ℚ) / 10 ^ p := by
  have h10 : ((10 : ℚ) ^ p) ≠ 0 := by positivity
  have hPp : P - p + p = P := Nat.sub_add_cancel h
  push_cast
  rw [div_eq_div_iff (by positivity) h10]
  rw [mul_assoc, ← pow_add, hPp]

theorem Fpdec.val_eq_scaled (f : Fpdec) (P : ℕ) (h : f.dec_prec ≤ P) :
    f.val = ((f.sgnNum * 10 ^ (P - f.dec_prec) : ℤ) : ℚ) / 10 ^ P :=
  (scaled_cast_le f.sgnNum f.dec_prec P h).symm

/-- Error tags of the engine (spec section 7). -/
inductive FpdecErr where
  | divideByZero
  | cannotRepresent
  | precLimitExceeded
deriving DecidableEq

theorem int_fdiv_neg_neg : ∀ (A B : ℤ), Int.fdiv (-A) (-B) = Int.fdiv A B
  | .ofNat 0, .ofNat 0 => rfl
  | .ofNat 0, .ofNat (_ + 1) => rfl
  | .ofNat 0, .negSucc _ => rfl
  | .ofNat (m + 1), .ofNat 0 => by
      show (0 : ℤ) = Int.ofNat ((m + 1) / 0)
      simp
  | .ofNat (_ + 1), .ofNat (_ + 1) => rfl
  | .ofNat (_ + 1), .negSucc _ => rfl
  | .negSucc m, .ofNat 0 => by
      show Int.ofNat ((m + 1) / 0) = (0 : ℤ)
      simp
  | .negSucc _, .ofNat (_ + 1) => rfl
  | .negSucc _, .negSucc _ => rfl

theorem int_fdiv_eq_floor (A B : ℤ) (hB : B ≠ 0) :
    Int.fdiv A B = ⌊(A : ℚ) / (B : ℚ)⌋ := by
  have hpos : ∀ a b : ℤ, 0 < b → Int.fdiv a b = ⌊(a : ℚ) / (b : ℚ)⌋ := by
    intro a b hb
    rw [Int.fdiv_eq_ediv _ hb.le]
    have h1 : ((b.toNat : ℕ) : ℚ) = (b : ℚ) := by
      rw [← Int.cast_natCast]
      exact congrArg _ (Int.toNat_of_nonneg hb.le)
    have h2 := Rat.floor_intCast_div_natCast a b.toNat
    rw [h1] at h2
    rw [h2, Int.toNat_of_nonneg hb.le]
  rcases lt_trichotomy B 0 with h | h | h
  · have := hpos (-A) (-B) (by omega)
    rw [int_fdiv_neg_neg] at this
    rw [this]
    congr 1
    push_cast
    rw [neg_div_neg_eq]
  · exact absurd h hB
  · exact hpos A B h

/-- Modelled from the spec: fpdec_add lives in libfpdec/fpdec.c, which is
not under src/.  Spec section 4.6 add: the result precision is
max(p_x, p_y), the lower-precision operand is rescaled by 10^Δp and the
signed numerators are added. -/
def fpdec_add (x y : Fpdec) : Fpdec :=
  let P := max x.dec_prec y.dec_prec
  Fpdec.ofScaled
    (x.sgnNum * 10 ^ (P - x.dec_prec) + y.sgnNum * 10 ^ (P - y.dec_prec)) P

/-- Modelled from the spec: fpdec_mul lives in libfpdec/fpdec.c, which is
not under src/.  Spec section 4.6 mul: p = p_x + p_y, failing with
PrecisionLimitExceeded when that sum exceeds the precision limit; the
coefficient is the product. -/
def fpdec_mul (maxDecPrec : ℕ) (x y : Fpdec) : Except FpdecErr Fpdec :=
  if maxDecPrec < x.dec_prec + y.dec_prec then .error .precLimitExceeded
  else .ok ⟨x.sign * y.sign, x.coeff * y.coeff, x.dec_prec + y.dec_prec⟩

/-- Modelled from the spec: fpdec_divmod lives in libfpdec/fpdec.c, which
is not under src/.  Spec section 4.6 divmod: quotient rounded toward
negative infinity (integer floor division of the numerators aligned at the
common precision), remainder x - q·y kept at precision max(p_x, p_y);
a zero divisor is a DivideByZero error. -/
def fpdec_divmod (x y : Fpdec) : Except FpdecErr (ℤ × Fpdec) :=
  let P := max x.dec_prec y.dec_prec
  let a := x.sgnNum * 10 ^ (P - x.dec_prec)
  let b := y.sgnNum * 10 ^ (P - y.dec_prec)
  if b = 0 then .error .divideByZero
  else
    let q := Int.fdiv a b
    .ok (q, Fpdec.ofScaled (a - q * b) P)

/-- Round-half-even applied to the ratio n / d for positive d: floor
quotient, bumped by one when twice the remainder exceeds d, ties going to
the even neighbour (spec section 4.7, mode half_even, which is the initial
process-wide default). -/
def rnd_half_even (n : ℤ) (d : ℤ) : ℤ :=
  let q := Int.fdiv n d
  let r := n - q * d
  if 2 * r < d then q
  else if d < 2 * r then q + 1
  else if q % 2 = 0 then q else q + 1

/-- Modelled from the spec: fpdec_adjusted / fpdec_adjust live in
libfpdec/fpdec.c, which is not under src/.  Spec section 4.4 adjust:
increasing the precision is exact (coefficient rescale); decreasing it
rounds the dropped fractional digits, here with the default rounding mode
half_even (spec section 4.7). -/
def fpdec_adjusted (f : Fpdec) (p : ℕ) : Fpdec :=
  if f.dec_prec ≤ p then ⟨f.sign, f.coeff * 10 ^ (p - f.dec_prec), p⟩
  else Fpdec.ofScaled (rnd_half_even f.sgnNum (10 ^ (f.dec_prec - p))) p

theorem fpdec_add_dec_prec (x y : Fpdec) :
    (fpdec_add x y).dec_prec = max x.dec_prec y.dec_prec := rfl

theorem fpdec_add_val (x y : Fpdec) : (fpdec_add x y).val = x.val + y.val := by
  unfold fpdec_add
  rw [Fpdec.val_ofScaled, Int.cast_add, add_div,
      scaled_cast_le x.sgnNum x.dec_prec _ (le_max_left _ _),
      scaled_cast_le y.sgnNum y.dec_prec _ (le_max_right _ _)]
  rfl

theorem fpdec_mul_ok_val (maxDecPrec : ℕ) (x y z : Fpdec)
    (h : fpdec_mul maxDecPrec x y = .ok z) :
    z.dec_prec = x.dec_prec + y.dec_prec ∧ z.val = x.val * y.val := by
  unfold fpdec_mul at h
  by_cases hp : maxDecPrec < x.dec_prec + y.dec_prec
  · simp [hp] at h
  · simp [hp] at h
    subst h
    refine ⟨rfl, ?_⟩
    unfold Fpdec.val Fpdec.sgnNum
    push_cast
    rw [pow_add]
    field_simp
    ring

/-- Sign of a rational as a rational: 1, -1 or 0. -/
def ratSign (q : ℚ) : ℚ := if 0 < q then 1 else if q < 0 then -1 else 0

theorem floor_rem_bounds (u v : ℚ) (hv : v ≠ 0) :
    0 ≤ ratSign v * (u - ⌊u / v⌋ * v) ∧
      ratSign v * (u - ⌊u / v⌋ * v) < |v| := by
  have hfl : (⌊u / v⌋ : ℚ) ≤ u / v := Int.floor_le (u / v)
  have hfu : u / v < ⌊u / v⌋ + 1 := Int.lt_floor_add_one (u / v)
  rcases lt_or_gt_of_ne hv with hneg | hpos
  · have hs : ratSign v = -1 := by
      unfold ratSign
      rw [if_neg (by linarith), if_pos hneg]
    have h1 : u ≤ (⌊u / v⌋ : ℚ) * v := by
      have := mul_le_mul_of_nonpos_right hfl hneg.le
      rwa [div_mul_cancel₀ u hv] at this
    have h2 : (⌊u / v⌋ : ℚ) * v + v < u := by
      have := mul_lt_mul_of_neg_right hfu hneg
      rw [div_mul_cancel₀ u hv] at this
      linarith [this]
    rw [hs, abs_of_neg hneg]
    constructor <;> nlinarith
  · have hs : ratSign v = 1 := by
      unfold ratSign
      rw [if_pos hpos]
    have h1 : (⌊u / v⌋ : ℚ) * v ≤ u := by
      have := mul_le_mul_of_nonneg_right hfl hpos.le
      rwa [div_mul_cancel₀ u hv] at this
    have h2 : u < (⌊u / v⌋ : ℚ) * v + v := by
      have := mul_lt_mul_of_pos_right hfu hpos
      rw [div_mul_cancel₀ u hv] at this
      linarith [this]
    rw [hs, abs_of_pos hpos]
    constructor <;> nlinarith

/-- C1: for every Decimal x and nonzero Decimal y, divmod(x, y) returns a
pair (q, r) with q an integer, r a Decimal of precision max(p_x, p_y),
q·y + r = x, 0 ≤ sign(y)·r < |y| and q = ⌊x / y⌋; in particular
divmod(Decimal(7.5), Decimal(-2)) = (-4, Decimal(-0.5)), and a zero
divisor fails with DivideByZero. -/
theorem claim_C1_divmod (x y : Fpdec) :
    (y.val = 0 → fpdec_divmod x y = .error .divideByZero)
    ∧ (y.val ≠ 0 →
        ∃ q r, fpdec_divmod x y = .ok (q, r)
          ∧ r.dec_prec = max x.dec_prec y.dec_prec
          ∧ (q : ℚ) * y.val + r.val = x.val
          ∧ 0 ≤ ratSign y.val * r.val
          ∧ ratSign y.val * r.val < |y.val|
          ∧ q = ⌊x.val / y.val⌋)
    ∧ fpdec_divmod ⟨1, 75, 1⟩ ⟨-1, 2, 0⟩ = .ok (-4, ⟨-1, 5, 1⟩) := by
  set P := max x.dec_prec y.dec_prec with hP
  set a := x.sgnNum * 10 ^ (P - x.dec_prec) with ha
  set b := y.sgnNum * 10 ^ (P - y.dec_prec) with hb
  have hvx : x.val = (a : ℚ) / 10 ^ P := Fpdec.val_eq_scaled x P (le_max_left _ _)
  have hvy : y.val = (b : ℚ) / 10 ^ P := Fpdec.val_eq_scaled y P (le_max_right _ _)
  have h10 : ((10 : ℚ) ^ P) ≠ 0 := by positivity
  have hb_iff : y.val = 0 ↔ b = 0 := by
    rw [hvy, div_eq_zero_iff]
    simp [h10]
  refine ⟨?_, ?_, ?_⟩
  · intro h0
    have : b = 0 := hb_iff.mp h0
    simp only [fpdec_divmod, ← hP, ← ha, ← hb, this, if_pos]
  · intro hne
    have hbne : b ≠ 0 := fun h => hne (hb_iff.mpr h)
    refine ⟨Int.fdiv a b, Fpdec.ofScaled (a - Int.fdiv a b * b) P, ?_, rfl, ?_⟩
    · simp only [fpdec_divmod, ← hP, ← ha, ← hb, if_neg hbne]
    · have hratio : x.val / y.val = (a : ℚ) / (b : ℚ) := by
        have hbq : (b : ℚ) ≠ 0 := Int.cast_ne_zero.mpr hbne
        rw [hvx, hvy]
        field_simp
      have hq : Int.fdiv a b = ⌊x.val / y.val⌋ := by
        rw [int_fdiv_eq_floor a b hbne, hratio]
      have hrval :
          (Fpdec.ofScaled (a - Int.fdiv a b * b) P).val
            = x.val - (Int.fdiv a b : ℚ) * y.val := by
        rw [Fpdec.val_ofScaled, hvx, hvy]
        push_cast
        ring
      have hrem : (Fpdec.ofScaled (a - Int.fdiv a b * b) P).val
          = x.val - (⌊x.val / y.val⌋ : ℚ) * y.val := by
        rw [hrval, hq]
      obtain ⟨hl, hu⟩ := floor_rem_bounds x.val y.val hne
      refine ⟨by rw [hrval]; ring, ?_, ?_, hq⟩
      · rw [hrem]; exact hl
      · rw [hrem]; exact hu
  · rfl

theorem claim_C1_divmod_witness :
    fpdec_divmod ⟨1, 75, 1⟩ ⟨0, 0, 0⟩ = .error .divideByZero
    ∧ (∃ q r, fpdec_divmod ⟨1, 75, 1⟩ ⟨-1, 2, 0⟩ = .ok (q, r)
        ∧ r.dec_prec = max 1 0
        ∧ (q : ℚ) * (⟨-1, 2, 0⟩ : Fpdec).val + r.val = (⟨1, 75, 1⟩ : Fpdec).val
        ∧ 0 ≤ ratSign (⟨-1, 2, 0⟩ : Fpdec).val * r.val
        ∧ ratSign (⟨-1, 2, 0⟩ : Fpdec).val * r.val < |(⟨-1, 2, 0⟩ : Fpdec).val|
        ∧ q = ⌊(⟨1, 75, 1⟩ : Fpdec).val / (⟨-1, 2, 0⟩ : Fpdec).val⌋) :=
  ⟨(claim_C1_divmod ⟨1, 75, 1⟩ ⟨0, 0, 0⟩).1
      (by unfold Fpdec.val Fpdec.sgnNum; norm_num),
    (claim_C1_divmod ⟨1, 75, 1⟩ ⟨-1, 2, 0⟩).2.1
      (by unfold Fpdec.val Fpdec.sgnNum; norm_num)⟩

/-- C4: for all Decimals x and y, precision(x + y) = max(p_x, p_y) and a
successful multiplication has precision p_x + p_y; the multiplication
fails with PrecisionLimitExceeded exactly when p_x + p_y exceeds the
precision limit.  Values (the sum and, on success, the product) are also
stated, confirming the operations compute what their names say. -/
theorem claim_C4_add_mul_precision (maxDecPrec : ℕ) (x y : Fpdec) :
    (fpdec_add x y).dec_prec = max x.dec_prec y.dec_prec
    ∧ (fpdec_add x y).val = x.val + y.val
    ∧ (∀ z, fpdec_mul maxDecPrec x y = .ok z →
        z.dec_prec = x.dec_prec + y.dec_prec ∧ z.val = x.val * y.val)
    ∧ (fpdec_mul maxDecPrec x y = .error .precLimitExceeded
        ↔ maxDecPrec < x.dec_prec + y.dec_prec) := by
  refine ⟨rfl, fpdec_add_val x y,
    fun z h => fpdec_mul_ok_val maxDecPrec x y z h, ?_⟩
  unfold fpdec_mul
  by_cases hp : maxDecPrec < x.dec_prec + y.dec_prec
  · simp [hp]
  · simp [hp]

theorem claim_C4_add_mul_precision_witness :
    (fpdec_add ⟨1, 1, 1⟩ ⟨1, 2, 1⟩).dec_prec = max 1 1
    ∧ ((⟨1, 2, 2⟩ : Fpdec).dec_prec = 1 + 1
        ∧ (⟨1, 2, 2⟩ : Fpdec).val
            = (⟨1, 1, 1⟩ : Fpdec).val * (⟨1, 2, 1⟩ : Fpdec).val) :=
  ⟨(claim_C4_add_mul_precision 9 ⟨1, 1, 1⟩ ⟨1, 2, 1⟩).1,
    (claim_C4_add_mul_precision 9 ⟨1, 1, 1⟩ ⟨1, 2, 1⟩).2.2.1 ⟨1, 2, 2⟩ rfl⟩

/-- Scaled numerator of the quotient x / y: the ratio of the two decimal
values equals divNum / divDen. -/
def divNum (x y : Fpdec) : ℤ := x.sgnNum * 10 ^ y.dec_prec

/-- Scaled denominator of the quotient x / y. -/
def divDen (x y : Fpdec) : ℤ := y.sgnNum * 10 ^ x.dec_prec

/-- Bounded search for the least exponent k with d dividing 10^k. -/
def leastPow10Aux (d : ℕ) : ℕ → ℕ → ℕ
  | 0, k => k
  | fuel + 1, k => if d ∣ 10 ^ k then k else leastPow10Aux d fuel (k + 1)

/-- Least exponent k with d dividing 10^k, when one exists below d + 1. -/
def leastPow10 (d : ℕ) : ℕ := leastPow10Aux d (d + 1) 0

theorem leastPow10Aux_dvd (d : ℕ) :
    ∀ fuel k, d ∣ 10 ^ (k + fuel) → d ∣ 10 ^ leastPow10Aux d (fuel + 1) k
  | 0, k, h => by
      rw [Nat.add_zero] at h
      unfold leastPow10Aux
      simp [h]
  | fuel + 1, k, h => by
      show d ∣ 10 ^ (if d ∣ 10 ^ k then k else leastPow10Aux d (fuel + 1) (k + 1))
      by_cases hk : d ∣ 10 ^ k
      · simp [hk]
      · rw [if_neg hk]
        exact leastPow10Aux_dvd d fuel (k + 1)
          (by rwa [show k + 1 + fuel = k + (fuel + 1) by omega])

theorem leastPow10_dvd (d : ℕ) (h : d ∣ 10 ^ d) : d ∣ 10 ^ leastPow10 d :=
  leastPow10Aux_dvd d d 0 (by simpa using h)

/-- Divisibility transfer: a divisor of some power of ten divides the power
of ten with its own exponent. -/
theorem dvd_pow10_self_of_dvd_pow10 {d k : ℕ} (h : d ∣ 10 ^ k) :
    d ∣ 10 ^ d := by
  have hmulk : (2 : ℕ) ^ k * 5 ^ k = 10 ^ k := by
    rw [← Nat.mul_pow]
  have h25 : d ∣ 2 ^ k * 5 ^ k := hmulk ▸ h
  obtain ⟨u, v, hu, hv, huv⟩ := Nat.dvd_mul.mp h25
  obtain ⟨i, _, rfl⟩ := (Nat.dvd_prime_pow Nat.prime_two).mp hu
  obtain ⟨j, _, rfl⟩ := (Nat.dvd_prime_pow (by norm_num)).mp hv
  have hdpos : 0 < d := by
    rcases Nat.eq_zero_or_pos d with h0 | h0
    · subst h0
      exact absurd (Nat.eq_zero_of_zero_dvd h) (by positivity)
    · exact h0
  have hile : i ≤ d := by
    have h2i : 2 ^ i ≤ d := Nat.le_of_dvd hdpos (huv ▸ Dvd.intro _ rfl)
    have := Nat.lt_two_pow i
    omega
  have hjle : j ≤ d := by
    have h5j : 5 ^ j ≤ d := Nat.le_of_dvd hdpos (huv ▸ Dvd.intro_left _ rfl)
    have := Nat.lt_pow_self (by norm_num : 1 < 5) j
    omega
  have hmuld : (2 : ℕ) ^ d * 5 ^ d = 10 ^ d := by
    rw [← Nat.mul_pow]
  have hdvd : 2 ^ i * 5 ^ j ∣ 2 ^ d * 5 ^ d :=
    Nat.mul_dvd_mul (Nat.pow_dvd_pow 2 hile) (Nat.pow_dvd_pow 5 hjle)
  rw [hmuld] at hdvd
  exact huv ▸ hdvd

/-- Modelled from the spec: the unspecified-precision path of fpdec_div
(libfpdec/fpdec.c, not under src/).  Reduce the integer ratio a / b by the
gcd; if the reduced denominator dn divides a power of ten (checked as
dn dividing 10^dn, which claim C2 proves equivalent), return the exact
quotient at the least sufficient precision, else fail CannotRepresent
(spec section 4.6 truediv with p = -1). -/
def int_pair_div_exact (a b : ℤ) : Except FpdecErr Fpdec :=
  let g := Nat.gcd a.natAbs b.natAbs
  let dn := b.natAbs / g
  if dn ∣ 10 ^ dn then
    let p := leastPow10 dn
    .ok (Fpdec.ofScaled (a.sign * b.sign * ((a.natAbs / g) * (10 ^ p / dn) : ℕ)) p)
  else .error .cannotRepresent

/-- Modelled from the spec: fpdec_div lives in libfpdec/fpdec.c, which is
not under src/.  Spec section 4.6 truediv: with a caller-supplied target
precision p the quotient is rounded to p fractional digits (default mode
half_even); with the precision unspecified (the C call passes -1, here
none) the exact-quotient path int_pair_div_exact is taken.  A zero divisor
fails DivideByZero. -/
def fpdec_div (x y : Fpdec) (prec : Option ℕ) : Except FpdecErr Fpdec :=
  let a := divNum x y
  let b := divDen x y
  if b = 0 then .error .divideByZero
  else
    match prec with
    | some p =>
        .ok (Fpdec.ofScaled (rnd_half_even (a * 10 ^ p * b.sign) b.natAbs) p)
    | none => int_pair_div_exact a b

theorem divDen_eq_zero_iff (x y : Fpdec) : divDen x y = 0 ↔ y.val = 0 := by
  unfold divDen Fpdec.val
  rw [div_eq_zero_iff]
  constructor
  · intro h
    rcases mul_eq_zero.mp h with h | h
    · exact Or.inl (by exact_mod_cast congrArg (Int.cast : ℤ → ℚ) h)
    · exact absurd h (by positivity)
  · intro h
    rcases h with h | h
    · have : y.sgnNum = 0 := by exact_mod_cast h
      rw [this, zero_mul]
    · exact absurd h (by positivity)

theorem val_div_val_eq (x y : Fpdec) (hb : divDen x y ≠ 0) :
    x.val / y.val = (divNum x y : ℚ) / (divDen x y : ℚ) := by
  have hyn : (y.sgnNum : ℚ) ≠ 0 := by
    intro h
    apply hb
    unfold divDen
    have : y.sgnNum = 0 := by exact_mod_cast h
    rw [this, zero_mul]
  unfold Fpdec.val divNum divDen
  push_cast
  rw [div_div_div_eq]
  rw [div_eq_div_iff (by positivity) (by positivity)]
  ring

theorem int_sign_mul_self (b : ℤ) (hb : b ≠ 0) : b.sign * b.sign = 1 := by
  rcases lt_trichotomy b 0 with h | h | h
  · rw [Int.sign_eq_neg_one_iff_neg.mpr h]; rfl
  · exact absurd h hb
  · rw [Int.sign_eq_one_iff_pos.mpr h]; rfl

theorem red_den_pos (a b : ℤ) (hb : b ≠ 0) :
    0 < b.natAbs / a.natAbs.gcd b.natAbs := by
  have hbpos : 0 < b.natAbs := Int.natAbs_pos.mpr hb
  have hgpos : 0 < a.natAbs.gcd b.natAbs := Nat.gcd_pos_of_pos_right _ hbpos
  exact Nat.div_pos (Nat.le_of_dvd hbpos (Nat.gcd_dvd_right _ _)) hgpos

theorem int_div_eq_red (a b : ℤ) (hb : b ≠ 0) :
    (a : ℚ) / b
      = ((a.sign * b.sign * (a.natAbs / a.natAbs.gcd b.natAbs : ℕ) : ℤ) : ℚ)
        / ((b.natAbs / a.natAbs.gcd b.natAbs : ℕ) : ℚ) := by
  set g := a.natAbs.gcd b.natAbs with hg
  have hbpos : 0 < b.natAbs := Int.natAbs_pos.mpr hb
  have hgpos : 0 < g := Nat.gcd_pos_of_pos_right _ hbpos
  obtain ⟨A, hA⟩ := Nat.gcd_dvd_left a.natAbs b.natAbs
  obtain ⟨D, hD⟩ := Nat.gcd_dvd_right a.natAbs b.natAbs
  rw [← hg] at hA hD
  have hAdiv : a.natAbs / g = A := by rw [hA]; exact Nat.mul_div_cancel_left A hgpos
  have hDdiv : b.natAbs / g = D := by rw [hD]; exact Nat.mul_div_cancel_left D hgpos
  have hDpos : 0 < D := by
    rcases Nat.eq_zero_or_pos D with h0 | h0
    · subst h0; rw [Nat.mul_zero] at hD; omega
    · exact h0
  rw [hAdiv, hDdiv]
  have hDq : ((D : ℕ) : ℚ) ≠ 0 := by positivity
  have hbq : (b : ℚ) ≠ 0 := Int.cast_ne_zero.mpr hb
  rw [div_eq_div_iff hbq hDq]
  have key : a * (D : ℤ) = (a.sign * b.sign * (A : ℕ)) * b := by
    have h1 : a.sign * (a.natAbs : ℤ) = a := Int.sign_mul_natAbs a
    have h2 : b.sign * (b.natAbs : ℤ) = b := Int.sign_mul_natAbs b
    have hAz : (a.natAbs : ℤ) = (g : ℤ) * A := by exact_mod_cast hA
    have hDz : (b.natAbs : ℤ) = (g : ℤ) * D := by exact_mod_cast hD
    have hsb : b.sign * b.sign = 1 := int_sign_mul_self b hb
    calc a * (D : ℤ)
        = a.sign * (a.natAbs : ℤ) * D := by rw [h1]
      _ = a.sign * ((g : ℤ) * A) * D := by rw [hAz]
      _ = a.sign * (b.sign * b.sign) * ((g : ℤ) * A) * D := by rw [hsb]; ring
      _ = a.sign * b.sign * (A : ℕ) * (b.sign * ((g : ℤ) * D)) := by ring
      _ = a.sign * b.sign * (A : ℕ) * (b.sign * (b.natAbs : ℤ)) := by rw [hDz]
      _ = (a.sign * b.sign * (A : ℕ)) * b := by rw [h2]
  calc (a : ℚ) * (D : ℕ)
      = ((a * (D : ℤ) : ℤ) : ℚ) := by push_cast; ring
    _ = (((a.sign * b.sign * (A : ℕ)) * b : ℤ) : ℚ) := by rw [key]
    _ = ((a.sign * b.sign * (A : ℕ) : ℤ) : ℚ) * b := by push_cast; ring

theorem int_div_den_red (a b : ℤ) (hb : b ≠ 0) :
    ((a : ℚ) / b).den = b.natAbs / a.natAbs.gcd b.natAbs := by
  set g := a.natAbs.gcd b.natAbs with hg
  set A := a.natAbs / g with hA
  set D := b.natAbs / g with hD
  have hbpos : 0 < b.natAbs := Int.natAbs_pos.mpr hb
  have hgpos : 0 < g := Nat.gcd_pos_of_pos_right _ hbpos
  have hDpos : 0 < D := red_den_pos a b hb
  have hcopAD : Nat.Coprime A D := Nat.coprime_div_gcd_div_gcd hgpos
  have hq := int_div_eq_red a b hb
  have hcop : (a.sign * b.sign * (A : ℕ) : ℤ).natAbs.Coprime ((D : ℕ) : ℤ).natAbs := by
    rw [Int.natAbs_mul, Int.natAbs_mul]
    rcases eq_or_ne a 0 with rfl | ha
    · have hA0 : A = 0 := by
        rw [hA]
        simp
      rw [hA0]
      simp [Nat.coprime_zero_left]
      have : g = b.natAbs := by
        rw [hg]
        simp
      rw [hD, this, Nat.div_self hbpos]
    · have hsa : a.sign.natAbs = 1 := by
        rcases lt_trichotomy a 0 with h | h | h
        · rw [Int.sign_eq_neg_one_iff_neg.mpr h]; rfl
        · exact absurd h ha
        · rw [Int.sign_eq_one_iff_pos.mpr h]; rfl
      have hsb : b.sign.natAbs = 1 := by
        rcases lt_trichotomy b 0 with h | h | h
        · rw [Int.sign_eq_neg_one_iff_neg.mpr h]; rfl
        · exact absurd h hb
        · rw [Int.sign_eq_one_iff_pos.mpr h]; rfl
      rw [hsa, hsb, Int.natAbs_ofNat, Int.natAbs_ofNat, one_mul, one_mul]
      exact hcopAD
  have hden := Rat.den_div_eq_of_coprime
    (a := a.sign * b.sign * (A : ℕ)) (b := ((D : ℕ) : ℤ))
    (by exact_mod_cast hDpos) hcop
  have hcast : (((D : ℕ) : ℤ) : ℚ) = ((D : ℕ) : ℚ) := by push_cast; rfl
  rw [hq, ← hcast]
  exact_mod_cast hden

theorem red_scaled_val (a b : ℤ) (hb : b ≠ 0) (p : ℕ)
    (hdvd : (b.natAbs / a.natAbs.gcd b.natAbs) ∣ 10 ^ p) :
    ((a.sign * b.sign *
        ((a.natAbs / a.natAbs.gcd b.natAbs) *
          (10 ^ p / (b.natAbs / a.natAbs.gcd b.natAbs)) : ℕ) : ℤ) : ℚ) / 10 ^ p
      = (a : ℚ) / b := by
  set g := a.natAbs.gcd b.natAbs with hg
  set A := a.natAbs / g with hA
  set D := b.natAbs / g with hD
  have hbpos : 0 < b.natAbs := Int.natAbs_pos.mpr hb
  have hgpos : 0 < g := Nat.gcd_pos_of_pos_right _ hbpos
  have hDpos : 0 < D := red_den_pos a b hb
  obtain ⟨T, hT⟩ := hdvd
  have hTdiv : 10 ^ p / D = T := by rw [hT]; exact Nat.mul_div_cancel_left T hDpos
  rw [hTdiv]
  have hred := int_div_eq_red a b hb
  rw [hred, ← hA, ← hD]
  have hDq : ((D : ℕ) : ℚ) ≠ 0 := by positivity
  have h10 : ((10 : ℚ) ^ p) ≠ 0 := by positivity
  rw [div_eq_div_iff h10 hDq]
  have hTzq : ((T : ℕ) : ℚ) * ((D : ℕ) : ℚ) = (10 : ℚ) ^ p := by
    have h := congrArg (fun n : ℕ => (n : ℚ)) hT
    push_cast at h
    rw [mul_comm]
    exact h.symm
  push_cast
  linear_combination ((a.sign : ℚ) * (b.sign : ℚ) * (A : ℚ)) * hTzq

theorem int_pair_div_exact_ok_iff (a b : ℤ) :
    (∃ z, int_pair_div_exact a b = .ok z)
      ↔ (b.natAbs / a.natAbs.gcd b.natAbs)
          ∣ 10 ^ (b.natAbs / a.natAbs.gcd b.natAbs) := by
  unfold int_pair_div_exact
  by_cases h : (b.natAbs / a.natAbs.gcd b.natAbs)
      ∣ 10 ^ (b.natAbs / a.natAbs.gcd b.natAbs)
  · simp [h]
  · simp [h]

theorem int_pair_div_exact_ok_val (a b : ℤ) (hb : b ≠ 0) (z : Fpdec)
    (h : int_pair_div_exact a b = .ok z) : z.val = (a : ℚ) / b := by
  unfold int_pair_div_exact at h
  by_cases hd : (b.natAbs / a.natAbs.gcd b.natAbs)
      ∣ 10 ^ (b.natAbs / a.natAbs.gcd b.natAbs)
  · simp only [hd, if_pos] at h
    have h' := h
    injection h' with h''
    rw [← h'', Fpdec.val_ofScaled]
    exact red_scaled_val a b hb _ (leastPow10_dvd _ hd)
  · simp [hd] at h

/-- Value carried by a mixed Decimal-or-fraction operation result. -/
def mixedNumVal : Fpdec ⊕ ℚ → ℚ
  | .inl z => z.val
  | .inr q => q

/-- Embedded from Decimal_truediv together with fallback_op and
fallback_n_convert_op (src/src/decimalfp/_cdecimalfp.c): the engine
division is tried first; on any engine error the operands are divided as
exact fractions (which raises the zero-division error for a zero divisor),
and the exact rational result is converted back to a Decimal when it is
representable, otherwise returned as a fraction. -/
def Decimal_truediv (x y : Fpdec) : Except FpdecErr (Fpdec ⊕ ℚ) :=
  match fpdec_div x y none with
  | .ok z => .ok (.inl z)
  | .error _ =>
    if y.val = 0 then .error .divideByZero
    else
      let q := x.val / y.val
      match int_pair_div_exact q.num (q.den : ℤ) with
      | .ok z => .ok (.inl z)
      | .error _ => .ok (.inr q)

/-- C2: true division without a caller-supplied target precision returns
the exact quotient iff the denominator of the reduced rational x/y divides
a power of ten; otherwise the engine fails CannotRepresent and the caller
falls back to a rational path whose result carries the exact quotient.
Decimal(1) / Decimal(3) without a precision hint fails CannotRepresent,
and a zero divisor fails DivideByZero. -/
theorem claim_C2_truediv (x y : Fpdec) :
    (y.val = 0 → fpdec_div x y none = .error .divideByZero
        ∧ Decimal_truediv x y = .error .divideByZero)
    ∧ (y.val ≠ 0 →
        ((∃ z, fpdec_div x y none = .ok z ∧ z.val = x.val / y.val)
            ↔ (∃ k, (x.val / y.val).den ∣ 10 ^ k))
        ∧ (fpdec_div x y none = .error .cannotRepresent →
            ∃ w, Decimal_truediv x y = .ok w ∧ mixedNumVal w = x.val / y.val))
    ∧ fpdec_div ⟨1, 1, 0⟩ ⟨1, 3, 0⟩ none = .error .cannotRepresent := by
  refine ⟨?_, ?_, ?_⟩
  · intro h0
    have hb0 : divDen x y = 0 := (divDen_eq_zero_iff x y).mpr h0
    have hdiv : fpdec_div x y none = .error .divideByZero := by
      unfold fpdec_div
      simp [hb0]
    refine ⟨hdiv, ?_⟩
    unfold Decimal_truediv
    rw [hdiv]
    simp [h0]
  · intro hne
    have hb : divDen x y ≠ 0 := fun h => hne ((divDen_eq_zero_iff x y).mp h)
    have hdiveq : fpdec_div x y none
        = int_pair_div_exact (divNum x y) (divDen x y) := by
      unfold fpdec_div
      simp [hb]
    have hden : (x.val / y.val).den
        = (divDen x y).natAbs
            / Nat.gcd (divNum x y).natAbs (divDen x y).natAbs := by
      rw [val_div_val_eq x y hb]
      exact int_div_den_red _ _ hb
    constructor
    · constructor
      · rintro ⟨z, hok, _⟩
        rw [hdiveq] at hok
        have hdvd := (int_pair_div_exact_ok_iff (divNum x y) (divDen x y)).mp ⟨z, hok⟩
        exact ⟨_, hden ▸ hdvd⟩
      · rintro ⟨k, hk⟩
        rw [hden] at hk
        have hdd := dvd_pow10_self_of_dvd_pow10 hk
        obtain ⟨z, hok⟩ := (int_pair_div_exact_ok_iff (divNum x y) (divDen x y)).mpr hdd
        refine ⟨z, hdiveq ▸ hok, ?_⟩
        rw [int_pair_div_exact_ok_val _ _ hb z hok, ← val_div_val_eq x y hb]
    · intro herr
      have hdenpos : (0 : ℤ) < ((x.val / y.val).den : ℤ) := by
        exact_mod_cast (x.val / y.val).pos
      cases hconv : int_pair_div_exact (x.val / y.val).num ((x.val / y.val).den : ℤ) with
      | ok z =>
          refine ⟨.inl z, ?_, ?_⟩
          · unfold Decimal_truediv
            rw [herr]
            simp [hne, hconv]
          · show z.val = x.val / y.val
            rw [int_pair_div_exact_ok_val _ _ hdenpos.ne' z hconv]
            push_cast
            exact Rat.num_div_den _
      | error e =>
          refine ⟨.inr (x.val / y.val), ?_, rfl⟩
          unfold Decimal_truediv
          rw [herr]
          simp [hne, hconv]
  · rfl

theorem claim_C2_truediv_witness :
    (fpdec_div ⟨1, 1, 0⟩ ⟨0, 0, 0⟩ none = .error .divideByZero
      ∧ Decimal_truediv ⟨1, 1, 0⟩ ⟨0, 0, 0⟩ = .error .divideByZero)
    ∧ ((∃ z, fpdec_div ⟨1, 1, 0⟩ ⟨1, 2, 0⟩ none = .ok z
          ∧ z.val = (⟨1, 1, 0⟩ : Fpdec).val / (⟨1, 2, 0⟩ : Fpdec).val)
        ↔ ∃ k, ((⟨1, 1, 0⟩ : Fpdec).val / (⟨1, 2, 0⟩ : Fpdec).val).den ∣ 10 ^ k)
    ∧ (∃ w, Decimal_truediv ⟨1, 1, 0⟩ ⟨1, 3, 0⟩ = .ok w
        ∧ mixedNumVal w = (⟨1, 1, 0⟩ : Fpdec).val / (⟨1, 3, 0⟩ : Fpdec).val) :=
  ⟨(claim_C2_truediv ⟨1, 1, 0⟩ ⟨0, 0, 0⟩).1
      (by unfold Fpdec.val Fpdec.sgnNum; norm_num),
    ((claim_C2_truediv ⟨1, 1, 0⟩ ⟨1, 2, 0⟩).2.1
      (by unfold Fpdec.val Fpdec.sgnNum; norm_num)).1,
    ((claim_C2_truediv ⟨1, 1, 0⟩ ⟨1, 3, 0⟩).2.1
      (by unfold Fpdec.val Fpdec.sgnNum; norm_num)).2
      (claim_C2_truediv ⟨1, 1, 0⟩ ⟨1, 3, 0⟩).2.2⟩

/-- Fuel-bounded count of trailing decimal zero digits, mirroring the
stripping loop of fpdec_dec_coeff_exp (src/src/decimalfp/_cdecimalfp.c);
the fuel n itself always suffices. -/
def tz10Aux : ℕ → ℕ → ℕ
  | 0, _ => 0
  | fuel + 1, n => if n % 10 = 0 ∧ n ≠ 0 then tz10Aux fuel (n / 10) + 1 else 0

/-- Number of trailing decimal zeros of n. -/
def tz10 (n : ℕ) : ℕ := tz10Aux n n

theorem tz10Aux_dvd : ∀ (fuel n : ℕ), 10 ^ tz10Aux fuel n ∣ n
  | 0, n => by simp [tz10Aux]
  | fuel + 1, n => by
      show 10 ^ (if n % 10 = 0 ∧ n ≠ 0 then tz10Aux fuel (n / 10) + 1 else 0) ∣ n
      by_cases h : n % 10 = 0 ∧ n ≠ 0
      · rw [if_pos h]
        have hdvd10 : 10 ∣ n := Nat.dvd_of_mod_eq_zero h.1
        obtain ⟨c, hc⟩ := tz10Aux_dvd fuel (n / 10)
        refine ⟨c, ?_⟩
        calc n = n / 10 * 10 := (Nat.div_mul_cancel hdvd10).symm
          _ = 10 ^ tz10Aux fuel (n / 10) * c * 10 := by rw [← hc]
          _ = 10 ^ (tz10Aux fuel (n / 10) + 1) * c := by rw [pow_succ]; ring
      · rw [if_neg h]
        simp

theorem tz10_dvd (n : ℕ) : 10 ^ tz10 n ∣ n := tz10Aux_dvd n n

/-- Embedded from fpdec_dec_coeff_exp (src/src/decimalfp/_cdecimalfp.c):
coefficient with the trailing decimal zeros stripped, paired with the
decimal exponent, so that the value is sign · coeff · 10^exp.  A zero
value yields (0, 0); otherwise the exponent is the number of stripped
zeros minus the declared precision (the shifted-int branch delegates to
fpdec_as_sign_coeff128_exp of libfpdec; per spec section 4.8 the exponent
is -dec_prec plus the trailing-zero shift). -/
def fpdec_dec_coeff_exp (f : Fpdec) : ℕ × ℤ :=
  if f.coeff = 0 then (0, 0)
  else
    let z := tz10 f.coeff
    (f.coeff / 10 ^ z, (z : ℤ) - f.dec_prec)

/-- Embedded from fpdec_as_integer_ratio
(src/src/decimalfp/_cdecimalfp.c, lines 1930-1997): take the stripped
coefficient and exponent, negate the coefficient for a negative sign;
exponent 0 gives (coeff, 1); a positive exponent gives (coeff·10^exp, 1);
a negative exponent divides (coeff, 10^(-exp)) by their gcd, with
Python's floor division. -/
def fpdec_as_integer_ratio (f : Fpdec) : ℤ × ℤ :=
  let ce := fpdec_dec_coeff_exp f
  let coeff : ℤ := if f.sign = -1 then -(ce.1 : ℤ) else (ce.1 : ℤ)
  if ce.2 = 0 then (coeff, 1)
  else if 0 < ce.2 then (coeff * 10 ^ ce.2.toNat, 1)
  else
    let tpe : ℕ := 10 ^ (-ce.2).toNat
    let g : ℕ := Nat.gcd ce.1 tpe
    (Int.fdiv coeff g, ((tpe / g : ℕ) : ℤ))

/-- Decimal object of the binding layer: an fpdec plus the lazily cached
numerator and denominator (struct DecimalObject in
src/src/decimalfp/_cdecimalfp.c). -/
structure DecimalObject where
  fpdec : Fpdec
  numerator : Option ℤ
  denominator : Option ℤ
deriving DecidableEq

/-- Embedded from Decimal_numerator_get: return the cached numerator, or
compute the integer-ratio pair, cache both parts and return the first. -/
def Decimal_numerator_get (self : DecimalObject) : ℤ × DecimalObject :=
  match self.numerator with
  | some n => (n, self)
  | none =>
    let nd := fpdec_as_integer_ratio self.fpdec
    (nd.1, { self with numerator := some nd.1, denominator := some nd.2 })

/-- Embedded from Decimal_denominator_get: return the cached denominator,
or compute the integer-ratio pair, cache both parts and return the second. -/
def Decimal_denominator_get (self : DecimalObject) : ℤ × DecimalObject :=
  match self.denominator with
  | some d => (d, self)
  | none =>
    let nd := fpdec_as_integer_ratio self.fpdec
    (nd.2, { self with numerator := some nd.1, denominator := some nd.2 })

theorem int_fdiv_sign_mul (s : ℤ) (c g : ℕ)
    (hg : g ∣ c) (hgpos : 0 < g) :
    Int.fdiv (s * (c : ℤ)) g = s * ((c / g : ℕ) : ℤ) := by
  obtain ⟨m, hm⟩ := hg
  have hdiv : c / g = m := by rw [hm]; exact Nat.mul_div_cancel_left m hgpos
  have hgz : (g : ℤ) ≠ 0 := by exact_mod_cast hgpos.ne'
  rw [hdiv, hm]
  push_cast
  rw [show s * ((g : ℤ) * m) = (g : ℤ) * (s * m) by ring]
  exact Int.mul_fdiv_cancel_left _ hgz

/-- C3: for every well-formed Decimal with value v, fpdec_as_integer_ratio
returns a pair of integers (n, d) with n/d = v, gcd(n, d) = 1 and d ≥ 1;
Decimal(0.1) yields (1, 10) and Decimal(0.25) yields (1, 4); the pair is
computed on the first numerator/denominator query, cached on the object
and returned from the cache afterwards. -/
theorem claim_C3_as_integer_ratio (f : Fpdec) (hwf : f.Wf) :
    (((fpdec_as_integer_ratio f).1 : ℚ) / ((fpdec_as_integer_ratio f).2 : ℚ)
        = f.val
      ∧ Int.gcd (fpdec_as_integer_ratio f).1 (fpdec_as_integer_ratio f).2 = 1
      ∧ 1 ≤ (fpdec_as_integer_ratio f).2)
    ∧ (fpdec_as_integer_ratio ⟨1, 1, 1⟩ = (1, 10)
      ∧ fpdec_as_integer_ratio ⟨1, 25, 2⟩ = (1, 4))
    ∧ (Decimal_numerator_get ⟨f, none, none⟩
        = ((fpdec_as_integer_ratio f).1,
            ⟨f, some (fpdec_as_integer_ratio f).1,
              some (fpdec_as_integer_ratio f).2⟩)
      ∧ Decimal_denominator_get ⟨f, none, none⟩
        = ((fpdec_as_integer_ratio f).2,
            ⟨f, some (fpdec_as_integer_ratio f).1,
              some (fpdec_as_integer_ratio f).2⟩)
      ∧ ∀ n d : ℤ,
          Decimal_numerator_get ⟨f, some n, some d⟩ = (n, ⟨f, some n, some d⟩)
          ∧ Decimal_denominator_get ⟨f, some n, some d⟩
              = (d, ⟨f, some n, some d⟩)) := by
  refine ⟨?_, ⟨rfl, rfl⟩, rfl, rfl, fun n d => ⟨rfl, rfl⟩⟩
  by_cases hc : f.coeff = 0
  · have hs0 : f.sign = 0 := hwf.2.mpr hc
    have hr : fpdec_as_integer_ratio f = (0, 1) := by
      unfold fpdec_as_integer_ratio fpdec_dec_coeff_exp
      simp [hc, hs0]
    rw [hr]
    unfold Fpdec.val Fpdec.sgnNum
    rw [hs0]
    norm_num
  · have hcpos : 0 < f.coeff := Nat.pos_of_ne_zero hc
    have hsgn : f.sign = 1 ∨ f.sign = -1 := by
      rcases hwf.1 with h | h | h
      · exact absurd (hwf.2.mp h) hc
      · exact Or.inl h
      · exact Or.inr h
    set z := tz10 f.coeff with hz_def
    set c' := f.coeff / 10 ^ z with hc'_def
    have hdz : 10 ^ z ∣ f.coeff := tz10_dvd f.coeff
    have hcoeff : c' * 10 ^ z = f.coeff := Nat.div_mul_cancel hdz
    have hc'pos : 0 < c' := by
      rcases Nat.eq_zero_or_pos c' with h0 | h0
      · rw [h0, zero_mul] at hcoeff; omega
      · exact h0
    have hce : fpdec_dec_coeff_exp f = (c', (z : ℤ) - f.dec_prec) := by
      unfold fpdec_dec_coeff_exp
      rw [if_neg hc]
    have hcoeffInt :
        (if f.sign = -1 then -(c' : ℤ) else (c' : ℤ)) = f.sign * c' := by
      rcases hsgn with h | h <;> simp [h]
    have hs_abs : f.sign.natAbs = 1 := by
      rcases hsgn with h | h <;> rw [h] <;> rfl
    have hval : f.val = (f.sign * (c' : ℤ) * 10 ^ z : ℚ) / 10 ^ f.dec_prec := by
      unfold Fpdec.val Fpdec.sgnNum
      rw [← hcoeff]
      push_cast
      ring_nf
    rcases lt_trichotomy ((z : ℤ) - f.dec_prec) 0 with he | he | he
    · -- negative exponent: divide by the gcd
      have hzp : z < f.dec_prec := by omega
      have htoNat : (-((z : ℤ) - f.dec_prec)).toNat = f.dec_prec - z := by omega
      have hr : fpdec_as_integer_ratio f
          = (Int.fdiv (f.sign * c') (Nat.gcd c' (10 ^ (f.dec_prec - z))),
              ((10 ^ (f.dec_prec - z) / Nat.gcd c' (10 ^ (f.dec_prec - z)) : ℕ) : ℤ)) := by
        unfold fpdec_as_integer_ratio
        rw [hce]
        simp only [hcoeffInt]
        rw [if_neg (by omega), if_neg (by omega), htoNat]
      set g := Nat.gcd c' (10 ^ (f.dec_prec - z)) with hg_def
      have htpe_pos : 0 < 10 ^ (f.dec_prec - z) := by positivity
      have hgpos : 0 < g := Nat.gcd_pos_of_pos_right _ htpe_pos
      obtain ⟨m, hm⟩ := Nat.gcd_dvd_left c' (10 ^ (f.dec_prec - z))
      obtain ⟨t, ht⟩ := Nat.gcd_dvd_right c' (10 ^ (f.dec_prec - z))
      have hmdiv : c' / g = m := by rw [hm]; exact Nat.mul_div_cancel_left m hgpos
      have htdiv : 10 ^ (f.dec_prec - z) / g = t := by
        rw [ht]; exact Nat.mul_div_cancel_left t hgpos
      have htpos : 0 < t := by
        rcases Nat.eq_zero_or_pos t with h0 | h0
        · rw [h0, Nat.mul_zero] at ht; omega
        · exact h0
      have hfdiv : Int.fdiv (f.sign * c') g = f.sign * ((c' / g : ℕ) : ℤ) :=
        int_fdiv_sign_mul f.sign c' g (Nat.gcd_dvd_left _ _) hgpos
      rw [hr, hfdiv, hmdiv, htdiv]
      dsimp only
      refine ⟨?_, ?_, by exact_mod_cast htpos⟩
      · rw [hval]
        have htq : ((t : ℕ) : ℚ) ≠ 0 := by positivity
        have h10p : ((10 : ℚ) ^ f.dec_prec) ≠ 0 := by positivity
        push_cast
        rw [div_eq_div_iff htq h10p]
        have hp_split : (10 : ℚ) ^ f.dec_prec = 10 ^ z * ((g : ℚ) * t) := by
          have h1 : ((10 ^ (f.dec_prec - z) : ℕ) : ℚ) = ((g * t : ℕ) : ℚ) := by
            exact_mod_cast congrArg (fun k : ℕ => (k : ℚ)) ht
          push_cast at h1
          have h2 : (10 : ℚ) ^ f.dec_prec = 10 ^ z * 10 ^ (f.dec_prec - z) := by
            rw [← pow_add]
            congr 1
            omega
          rw [h2, h1]
        have hmq : ((c' : ℕ) : ℚ) = (g : ℚ) * m := by
          exact_mod_cast congrArg (fun k : ℕ => (k : ℚ)) hm
        rw [hp_split, hmq]
        ring
      · rw [Int.gcd]
        rw [Int.natAbs_mul, hs_abs, one_mul, Int.natAbs_ofNat, Int.natAbs_ofNat]
        have hcop := Nat.coprime_div_gcd_div_gcd (m := c')
          (n := 10 ^ (f.dec_prec - z)) hgpos
        rw [hmdiv, htdiv] at hcop
        exact hcop
    · -- zero exponent
      have hzp : z = f.dec_prec := by omega
      have hr : fpdec_as_integer_ratio f = (f.sign * c', 1) := by
        unfold fpdec_as_integer_ratio
        rw [hce]
        simp only [hcoeffInt]
        rw [if_pos he]
      rw [hr]
      refine ⟨?_, ?_, le_refl 1⟩
      · rw [hval, hzp]
        have h10p : ((10 : ℚ) ^ f.dec_prec) ≠ 0 := by positivity
        push_cast
        field_simp
      · rw [Int.gcd]
        simp
    · -- positive exponent
      have hzp : f.dec_prec < z := by omega
      have htoNat : ((z : ℤ) - f.dec_prec).toNat = z - f.dec_prec := by omega
      have hr : fpdec_as_integer_ratio f
          = (f.sign * c' * 10 ^ (z - f.dec_prec), 1) := by
        unfold fpdec_as_integer_ratio
        rw [hce]
        simp only [hcoeffInt]
        rw [if_neg (by omega), if_pos he, htoNat]
      rw [hr]
      refine ⟨?_, ?_, le_refl 1⟩
      · rw [hval]
        have h10p : ((10 : ℚ) ^ f.dec_prec) ≠ 0 := by positivity
        have h2 : (10 : ℚ) ^ z = 10 ^ (z - f.dec_prec) * 10 ^ f.dec_prec := by
          rw [← pow_add]
          congr 1
          omega
        push_cast
        rw [h2]
        field_simp
        ring
      · rw [Int.gcd]
        simp

theorem claim_C3_as_integer_ratio_witness :
    ((fpdec_as_integer_ratio ⟨1, 1, 1⟩).1 : ℚ)
        / ((fpdec_as_integer_ratio ⟨1, 1, 1⟩).2 : ℚ) = (⟨1, 1, 1⟩ : Fpdec).val
    ∧ Int.gcd (fpdec_as_integer_ratio ⟨1, 1, 1⟩).1
        (fpdec_as_integer_ratio ⟨1, 1, 1⟩).2 = 1
    ∧ 1 ≤ (fpdec_as_integer_ratio ⟨1, 1, 1⟩).2 :=
  (claim_C3_as_integer_ratio ⟨1, 1, 1⟩ (by decide)).1

/-- Canonical decimal literal, abstracted from its character string: a
sign flag, the digit string read as a number (radix point dropped) and
the number of fractional digits shown. -/
structure DecLiteral where
  neg : Bool
  digits : ℕ
  nFrac : ℕ
deriving DecidableEq

/-- Modelled from the spec: fpdec_as_ascii_literal lives in libfpdec, not
under src/.  Canonical string of spec section 6: optional minus, the
digits, and exactly dec_prec fractional digits; with the strip flag set
(as used by Decimal_repr) trailing fractional zeros are dropped and the
zero value prints bare. -/
def fpdec_as_ascii_literal (f : Fpdec) (noTrailingZeros : Bool) : DecLiteral :=
  if noTrailingZeros then
    if f.coeff = 0 then ⟨false, 0, 0⟩
    else
      let s := min (tz10 f.coeff) f.dec_prec
      ⟨decide (f.sign = -1), f.coeff / 10 ^ s, f.dec_prec - s⟩
  else
    ⟨decide (f.sign = -1), f.coeff, f.dec_prec⟩

/-- Embedded from Decimal_repr (src/src/decimalfp/_cdecimalfp.c, lines
813-844): render the literal without trailing fractional zeros, count the
fractional digits after the radix point, and attach an explicit precision
argument exactly when that count differs from dec_prec. -/
def Decimal_repr (f : Fpdec) : DecLiteral × Option ℕ :=
  let lit := fpdec_as_ascii_literal f true
  if lit.nFrac = f.dec_prec then (lit, none) else (lit, some f.dec_prec)

/-- Modelled from the spec: fpdec_from_unicode_literal lives in libfpdec,
not under src/.  Spec section 4.5 applied to a canonical literal (which
carries no exponent part): the coefficient is the digit string
I·10^len(F) + F, dec_prec is len(F), and the sign is taken from the sign
character unless the coefficient is zero. -/
def fpdec_from_literal (lit : DecLiteral) : Fpdec :=
  ⟨if lit.digits = 0 then 0 else if lit.neg then -1 else 1,
    lit.digits, lit.nFrac⟩

/-- Embedded from DecimalType_from_str (src/src/decimalfp/_cdecimalfp.c,
lines 260-282): parse the literal, then adjust exactly when an explicit
precision differing from the parsed precision was supplied. -/
def DecimalType_from_str (lit : DecLiteral) (adjust_to_prec : Option ℕ) : Fpdec :=
  let f := fpdec_from_literal lit
  match adjust_to_prec with
  | none => f
  | some p => if p = f.dec_prec then f else fpdec_adjusted f p

/-- C5: for every well-formed Decimal x, parsing repr(x) reproduces x
exactly, in particular with equal value and equal precision; the repr
carries an explicit precision argument exactly when the precision cannot
be read off the number of fractional digits of the printed literal. -/
theorem claim_C5_repr_roundtrip (f : Fpdec) (hwf : f.Wf) :
    DecimalType_from_str (Decimal_repr f).1 (Decimal_repr f).2 = f
    ∧ (DecimalType_from_str (Decimal_repr f).1 (Decimal_repr f).2).val = f.val
    ∧ (DecimalType_from_str (Decimal_repr f).1 (Decimal_repr f).2).dec_prec
        = f.dec_prec
    ∧ ((Decimal_repr f).2 = none
        ↔ (Decimal_repr f).1.nFrac = f.dec_prec) := by
  obtain ⟨fs, fc, fp⟩ := f
  have hiff : (Decimal_repr ⟨fs, fc, fp⟩).2 = none
      ↔ (Decimal_repr ⟨fs, fc, fp⟩).1.nFrac = fp := by
    unfold Decimal_repr
    by_cases h : (fpdec_as_ascii_literal ⟨fs, fc, fp⟩ true).nFrac = fp
    · simp [h]
    · simp [h]
  have key : DecimalType_from_str (Decimal_repr ⟨fs, fc, fp⟩).1
      (Decimal_repr ⟨fs, fc, fp⟩).2 = ⟨fs, fc, fp⟩ := by
    by_cases hc : fc = 0
    · have hs0 : fs = 0 := hwf.2.mpr hc
      subst hc hs0
      have hlit : fpdec_as_ascii_literal ⟨0, 0, fp⟩ true = ⟨false, 0, 0⟩ := rfl
      by_cases hp : fp = 0
      · subst hp
        rfl
      · have hrepr : Decimal_repr ⟨0, 0, fp⟩ = (⟨false, 0, 0⟩, some fp) := by
          unfold Decimal_repr
          rw [hlit]
          simp [Ne.symm hp]
        rw [hrepr]
        unfold DecimalType_from_str fpdec_from_literal
        simp only [if_pos rfl]
        rw [if_neg hp]
        unfold fpdec_adjusted
        rw [if_pos (Nat.zero_le fp)]
        simp
    · have hsgn : fs = 1 ∨ fs = -1 := by
        rcases hwf.1 with h | h | h
        · exact absurd (hwf.2.mp h) hc
        · exact Or.inl h
        · exact Or.inr h
      set s := min (tz10 fc) fp with hs_def
      have hsdvd : 10 ^ s ∣ fc :=
        dvd_trans (pow_dvd_pow 10 (min_le_left _ _)) (tz10_dvd fc)
      have hdm : fc / 10 ^ s * 10 ^ s = fc := Nat.div_mul_cancel hsdvd
      have hdig_ne : fc / 10 ^ s ≠ 0 := by
        intro h0
        rw [h0, zero_mul] at hdm
        exact hc hdm.symm
      have hsle : s ≤ fp := min_le_right _ _
      have hlit : fpdec_as_ascii_literal ⟨fs, fc, fp⟩ true
          = ⟨decide (fs = -1), fc / 10 ^ s, fp - s⟩ := by
        unfold fpdec_as_ascii_literal
        rw [if_pos rfl, if_neg hc]
      have hsignRec :
          (if fc / 10 ^ s = 0 then (0 : ℤ)
            else if decide (fs = -1) then -1 else 1) = fs := by
        rw [if_neg hdig_ne]
        rcases hsgn with h | h <;> simp [h]
      by_cases hif : fp - s = fp
      · have hs0 : s = 0 := by omega
        have hrepr : Decimal_repr ⟨fs, fc, fp⟩
            = (⟨decide (fs = -1), fc / 10 ^ s, fp - s⟩, none) := by
          unfold Decimal_repr
          rw [hlit]
          simp [hif]
        rw [hrepr]
        unfold DecimalType_from_str fpdec_from_literal
        simp only
        rw [hsignRec, hs0]
        simp [hif, hs0]
      · have hrepr : Decimal_repr ⟨fs, fc, fp⟩
            = (⟨decide (fs = -1), fc / 10 ^ s, fp - s⟩, some fp) := by
          unfold Decimal_repr
          rw [hlit]
          simp [hif]
        rw [hrepr]
        unfold DecimalType_from_str fpdec_from_literal
        simp only
        rw [hsignRec]
        rw [if_neg (fun h => hif h.symm)]
        unfold fpdec_adjusted
        simp only
        rw [if_pos (by omega : fp - s ≤ fp)]
        have harg : fp - (fp - s) = s := by omega
        rw [harg, hdm]
  exact ⟨key, by rw [key], by rw [key], hiff⟩

theorem claim_C5_repr_roundtrip_witness :
    DecimalType_from_str (Decimal_repr ⟨1, 25, 2⟩).1 (Decimal_repr ⟨1, 25, 2⟩).2
        = ⟨1, 25, 2⟩
    ∧ (DecimalType_from_str (Decimal_repr ⟨1, 25, 2⟩).1
        (Decimal_repr ⟨1, 25, 2⟩).2).val = (⟨1, 25, 2⟩ : Fpdec).val
    ∧ (DecimalType_from_str (Decimal_repr ⟨1, 25, 2⟩).1
        (Decimal_repr ⟨1, 25, 2⟩).2).dec_prec = (⟨1, 25, 2⟩ : Fpdec).dec_prec
    ∧ ((Decimal_repr ⟨1, 25, 2⟩).2 = none
        ↔ (Decimal_repr ⟨1, 25, 2⟩).1.nFrac = (⟨1, 25, 2⟩ : Fpdec).dec_prec) :=
  claim_C5_repr_roundtrip ⟨1, 25, 2⟩ (by decide)

/-- Comparison operators of the rich-comparison protocol. -/
inductive CmpOp where
  | lt | le | eq | ne | gt | ge
deriving DecidableEq

/-- Comparison of two integers under a rich-comparison operator. -/
def applyCmpOpInt (op : CmpOp) (x y : ℤ) : Bool :=
  match op with
  | .lt => decide (x < y)
  | .le => decide (x ≤ y)
  | .eq => decide (x = y)
  | .ne => decide (x ≠ y)
  | .gt => decide (y < x)
  | .ge => decide (y ≤ x)

/-- Comparison of two rationals under a rich-comparison operator. -/
def applyCmpOpRat (op : CmpOp) (x y : ℚ) : Bool :=
  match op with
  | .lt => decide (x < y)
  | .le => decide (x ≤ y)
  | .eq => decide (x = y)
  | .ne => decide (x ≠ y)
  | .gt => decide (y < x)
  | .ge => decide (y ≤ x)

/-- Other operand of a comparison, covering the dispatch branches of
Decimal_richcompare: another Decimal, a Python int, an Integral, a
Rational, a Real exposing as_integer_ratio, and a complex-like value
(a numbers.Complex instance that is not Real and that, like Python's
complex type, has no as_integer_ratio method). -/
inductive PyNum where
  | dec (g : Fpdec)
  | int (n : ℤ)
  | integral (n : ℤ)
  | rational (q : ℚ)
  | realRatio (num den : ℤ)
  | complexLike (re im : ℚ)

/-- Embedded from Decimal_richcompare together with Decimal_cmp_to_int and
Decimal_cmp_to_ratio (src/src/decimalfp/_cdecimalfp.c, lines 878-1016),
dispatching in source order: another Decimal compares by fpdec value;
ints and Integrals compare the cached numerator against value times the
denominator; Rationals compare as fractions; a Real with
as_integer_ratio compares by cross multiplication.  A complex-like value
reaches the Complex branch (its missing as_integer_ratio raises
AttributeError, which is cleared): only equality operators are handled,
comparing against the real part when the imaginary part is zero and
otherwise answering false (true for not-equal); the remaining operators
give NotImplemented, modelled as none. -/
def Decimal_richcompare (self : Fpdec) (other : PyNum) (op : CmpOp) :
    Option Bool :=
  let nd := fpdec_as_integer_ratio self
  match other with
  | .dec g => some (applyCmpOpRat op self.val g.val)
  | .int n => some (applyCmpOpInt op nd.1 (n * nd.2))
  | .integral n => some (applyCmpOpInt op nd.1 (n * nd.2))
  | .rational q => some (applyCmpOpRat op ((nd.1 : ℚ) / (nd.2 : ℚ)) q)
  | .realRatio num den => some (applyCmpOpInt op (nd.1 * den) (num * nd.2))
  | .complexLike re im =>
    match op with
    | .eq =>
        if im = 0
        then some (applyCmpOpInt .eq (nd.1 * (re.den : ℤ)) (re.num * nd.2))
        else some false
    | .ne =>
        if im = 0
        then some (applyCmpOpInt .ne (nd.1 * (re.den : ℤ)) (re.num * nd.2))
        else some true
    | _ => none

/-- C6: comparing a Decimal for equality with a complex-like value whose
imaginary part is nonzero answers false (and true for not-equal); it is a
definite boolean answer, not a CannotRepresent failure. -/
theorem claim_C6_complex_eq (x : Fpdec) (re im : ℚ) (him : im ≠ 0) :
    Decimal_richcompare x (.complexLike re im) .eq = some false
    ∧ Decimal_richcompare x (.complexLike re im) .ne = some true := by
  unfold Decimal_richcompare
  simp [him]

theorem claim_C6_complex_eq_witness :
    Decimal_richcompare ⟨1, 1, 0⟩ (.complexLike 0 1) .eq = some false
    ∧ Decimal_richcompare ⟨1, 1, 0⟩ (.complexLike 0 1) .ne = some true :=
  claim_C6_complex_eq ⟨1, 1, 0⟩ 0 1 (by norm_num)

/-- Modelled from the spec: FPDEC_MAX_ROUNDING_MODE bounds the rounding
enum declared in libfpdec headers, which are not under src/; the eight
rounding modes of spec section 4.7 carry the values 1 to 8 (0 being the
use-the-default placeholder rejected here). -/
def FPDEC_MAX_ROUNDING_MODE : ℤ := 8

/-- Embedded from py_rnd_2_fpdec_rnd (src/src/decimalfp/_cdecimalfp.c,
lines 2131-2151): a none argument models an object failing the ROUNDING
enum type check; otherwise the member value must lie within
[1, FPDEC_MAX_ROUNDING_MODE], anything else being the
invalid-rounding-mode error, modelled as none. -/
def py_rnd_2_fpdec_rnd (py_rnd : Option ℤ) : Option ℤ :=
  match py_rnd with
  | none => none
  | some v => if 1 ≤ v ∧ v ≤ FPDEC_MAX_ROUNDING_MODE then some v else none

/-- Embedded from set_dflt_rounding_mode (src/src/decimalfp/_cdecimalfp.c,
lines 2161-2168): on a valid mode the process-wide default is replaced and
the call succeeds; on an invalid argument the error propagates and the
default is left as it was. -/
def set_dflt_rounding_mode (state : ℤ) (py_rnd : Option ℤ) :
    Option Unit × ℤ :=
  match py_rnd_2_fpdec_rnd py_rnd with
  | none => (none, state)
  | some m => (some (), m)

/-- C7: set_default_rounding succeeds exactly when the argument is one of
the eight rounding modes (enum values 1 to 8); any other argument fails
with the invalid-rounding-mode error and leaves the process-wide default
unchanged; a valid mode becomes the new default. -/
theorem claim_C7_set_default_rounding (state : ℤ) (arg : Option ℤ) :
    ((set_dflt_rounding_mode state arg).1 = some ()
        ↔ ∃ v, arg = some v ∧ 1 ≤ v ∧ v ≤ 8)
    ∧ ((set_dflt_rounding_mode state arg).1 = none
        → (set_dflt_rounding_mode state arg).2 = state)
    ∧ (∀ v, arg = some v → 1 ≤ v → v ≤ 8
        → (set_dflt_rounding_mode state arg).2 = v) := by
  unfold set_dflt_rounding_mode py_rnd_2_fpdec_rnd FPDEC_MAX_ROUNDING_MODE
  rcases arg with _ | v
  · refine ⟨?_, fun _ => rfl, fun v h => by cases h⟩
    simp
  · by_cases h : 1 ≤ v ∧ v ≤ 8
    · refine ⟨?_, ?_, ?_⟩
      · simp only [if_pos h]
        constructor
        · intro _
          exact ⟨v, rfl, h.1, h.2⟩
        · intro _
          trivial
      · simp [h]
      · intro w hw _ _
        injection hw with hw
        subst hw
        simp [h]
    · refine ⟨?_, ?_, ?_⟩
      · simp only [if_neg h]
        constructor
        · intro hcontra
          cases hcontra
        · rintro ⟨w, hw, h1, h8⟩
          injection hw with hw
          subst hw
          exact absurd ⟨h1, h8⟩ h
      · simp [h]
      · intro w hw h1 h8
        injection hw with hw
        subst hw
        exact absurd ⟨h1, h8⟩ h

theorem claim_C7_set_default_rounding_witness :
    (set_dflt_rounding_mode 6 (some 3)).2 = 3
    ∧ ((set_dflt_rounding_mode 6 (some 99)).1 = none
        → (set_dflt_rounding_mode 6 (some 99)).2 = 6) :=
  ⟨(claim_C7_set_default_rounding 6 (some 3)).2.2 3 rfl (by norm_num)
      (by norm_num),
    (claim_C7_set_default_rounding 6 (some 99)).2.1⟩

/-- Result of constructing a Decimal from a Decimal: either the given
instance itself (identity, reference count increased) or a freshly
allocated object. -/
inductive FromDecimalResult where
  | same
  | fresh (f : Fpdec)
deriving DecidableEq

/-- Embedded from DecimalType_from_decimal (src/src/decimalfp/
_cdecimalfp.c, lines 244-258) in the direct-instance case: when no
adjustment is requested (-1) or the requested precision equals the
instance's own, the given object itself is returned; otherwise a fresh
object is made through DecimalType_from_fpdec, which adjusts to the
requested precision. -/
def DecimalType_from_decimal (d : Fpdec) (adjust_to_prec : ℤ) :
    FromDecimalResult :=
  if adjust_to_prec = -1 ∨ (d.dec_prec : ℤ) = adjust_to_prec then .same
  else .fresh (fpdec_adjusted d adjust_to_prec.toNat)

/-- C8: constructing a Decimal from a direct Decimal instance d with no
precision argument, or with a precision equal to d's, returns d itself
(the identical object, hence trivially equal to d with the same
precision); a fresh object is allocated exactly when a differing precision
is requested. -/
theorem claim_C8_from_decimal_identity (d : Fpdec) (p : ℤ) :
    (DecimalType_from_decimal d p = .same ↔ (p = -1 ∨ p = (d.dec_prec : ℤ)))
    ∧ DecimalType_from_decimal d (-1) = .same
    ∧ DecimalType_from_decimal d (d.dec_prec : ℤ) = .same
    ∧ ((∃ g, DecimalType_from_decimal d p = .fresh g)
        ↔ (p ≠ -1 ∧ p ≠ (d.dec_prec : ℤ))) := by
  unfold DecimalType_from_decimal
  have hcond : (p = -1 ∨ (d.dec_prec : ℤ) = p) ↔ (p = -1 ∨ p = (d.dec_prec : ℤ)) := by
    constructor
    · rintro (h | h)
      · exact Or.inl h
      · exact Or.inr h.symm
    · rintro (h | h)
      · exact Or.inl h
      · exact Or.inr h.symm
  refine ⟨?_, by simp, by simp, ?_⟩
  · by_cases h : p = -1 ∨ (d.dec_prec : ℤ) = p
    · simp [h, hcond.mp h]
    · have h' : ¬(p = -1 ∨ p = (d.dec_prec : ℤ)) := fun hc => h (hcond.mpr hc)
      simp [h, h']
  · by_cases h : p = -1 ∨ (d.dec_prec : ℤ) = p
    · have h' := hcond.mp h
      simp [h]
      tauto
    · have h' : ¬(p = -1 ∨ p = (d.dec_prec : ℤ)) := fun hc => h (hcond.mpr hc)
      simp [h]
      tauto

/-- Embedded from the value-is-None branch of DecimalType_from_obj
(src/src/decimalfp/_cdecimalfp.c, lines 486-497): allocate the zero fpdec
(sign 0, coefficient 0), set its precision to max(0, adjust_to_prec), and
cache numerator 0 and denominator 1. -/
def DecimalType_from_obj_none (adjust_to_prec : ℤ) : DecimalObject :=
  { fpdec := ⟨0, 0, (max 0 adjust_to_prec).toNat⟩,
    numerator := some 0,
    denominator := some 1 }

/-- C9: constructing a Decimal with no value argument yields zero: for any
precision argument p (-1 encoding an absent one), the result has sign 0,
coefficient 0, value 0, precision max(0, p), numerator 0 and
denominator 1. -/
theorem claim_C9_default_zero (p : ℤ) :
    (DecimalType_from_obj_none p).fpdec.sign = 0
    ∧ (DecimalType_from_obj_none p).fpdec.coeff = 0
    ∧ ((DecimalType_from_obj_none p).fpdec.dec_prec : ℤ) = max 0 p
    ∧ (DecimalType_from_obj_none p).fpdec.val = 0
    ∧ (Decimal_numerator_get (DecimalType_from_obj_none p)).1 = 0
    ∧ (Decimal_denominator_get (DecimalType_from_obj_none p)).1 = 1 := by
  refine ⟨rfl, rfl, ?_, ?_, rfl, rfl⟩
  · exact Int.toNat_of_nonneg (le_max_left 0 p)
  · unfold DecimalType_from_obj_none Fpdec.val Fpdec.sgnNum
    norm_num

/-- Wrap modulus of the C size_t arithmetic (64-bit build). -/
def SIZE_T_MOD : ℕ := 2 ^ 64

/-- Largest size_t value, the sentinel for an unset format precision. -/
def SIZE_MAX : ℕ := 2 ^ 64 - 1

/-- UTF-8 character buffer of format_spec.h: length plus up to four raw
bytes. -/
structure Utf8c where
  n_bytes : ℕ
  bytes : List ℕ
deriving DecidableEq

/-- Parsed format specification (struct format_spec_t of format_spec.h);
characters are stored as byte values. -/
structure FormatSpec where
  fill : Utf8c
  align : ℕ
  sign : ℕ
  min_width : ℕ
  thousands_sep : Utf8c
  grouping : List ℕ
  decimal_point : Utf8c
  precision : ℕ
  type : ℕ
deriving DecidableEq

/-- Embedded from DFLT_FORMAT
(src/src/decimalfp/libfpdec/format_spec.c): blank fill, right alignment,
minus-only sign, no width, no thousands separator, grouping {3,0,0,0,0},
point 46, unset precision, type f. -/
def DFLT_FORMAT : FormatSpec :=
  { fill := ⟨1, [32]⟩
    align := 62
    sign := 45
    min_width := 0
    thousands_sep := ⟨0, []⟩
    grouping := [3, 0, 0, 0, 0]
    decimal_point := ⟨1, [46]⟩
    precision := SIZE_MAX
    type := 102 }

/-- Embedded from the no_fill constant of format_spec.c. -/
def no_fill : Utf8c := ⟨0, []⟩

/-- Locale parameters consulted for type n, behind the abstract locale
interface of spec section 9 (localeconv fields as byte lists). -/
structure Lconv where
  thousands_sep : List ℕ
  grouping : List ℕ
  decimal_point : List ℕ

/-- Modelled from the spec: utf8c_len is declared in format_spec.h, which
is not under src/; standard UTF-8 sequence length read off the lead byte,
negative for an invalid lead byte. -/
def utf8c_len (b : ℕ) : ℤ :=
  if b < 128 then 1
  else if b < 192 then -1
  else if b < 224 then 2
  else if b < 240 then 3
  else if b < 248 then 4
  else -1

/-- Byte of the format string at an index, 0 beyond the end as for a
NUL-terminated C string. -/
def byteAt (fmt : List ℕ) (i : ℕ) : ℕ := fmt.getD i 0

/-- Test for an ASCII digit, as isdigit in the C locale. -/
def isdigitB (b : ℕ) : Bool := decide (48 ≤ b) && decide (b ≤ 57)

/-- Test for an alignment character: one of < > = ^. -/
def isAlignChar (b : ℕ) : Bool :=
  decide (b = 60) || decide (b = 62) || decide (b = 61) || decide (b = 94)

/-- Digit-accumulation loop of parse_format_spec with the size_t
wraparound check (overflow yields none); the fuel is always called with
more steps than bytes left. -/
def parse_uint_wrap : ℕ → List ℕ → ℕ → ℕ → Option (ℕ × ℕ)
  | 0, _, i, acc => some (acc, i)
  | fuel + 1, fmt, i, acc =>
    let b := byteAt fmt i
    if isdigitB b then
      let acc2 := (acc * 10 + (b - 48)) % SIZE_T_MOD
      if acc2 < acc then none
      else parse_uint_wrap fuel fmt (i + 1) acc2
    else some (acc, i)

/-- Embedded from parse_format_spec
(src/src/decimalfp/libfpdec/format_spec.c, lines 47-131): the field-
parsing part, covering fill and alignment, sign, zero padding, minimum
width, thousands-separator comma, precision, type, and the end-of-string
check.  Errors (invalid lead byte, leading zero width, missing precision
digits, overflow, trailing characters) give none. -/
def parse_fields (fmt : List ℕ) : Option FormatSpec :=
  let t := utf8c_len (byteAt fmt 0)
  if t ≤ 0 then none
  else
    let tn := t.toNat
    let fillStep : FormatSpec × ℕ × Bool :=
      if isAlignChar (byteAt fmt tn) then
        ({ DFLT_FORMAT with
            fill := ⟨tn, (List.range tn).map (byteAt fmt)⟩
            align := byteAt fmt tn },
          (tn + 1, true))
      else if isAlignChar (byteAt fmt 0) then
        ({ DFLT_FORMAT with align := byteAt fmt 0 }, (1, false))
      else (DFLT_FORMAT, (0, false))
    let spec0 := fillStep.1
    let i0 := fillStep.2.1
    let gotFill := fillStep.2.2
    let signStep : FormatSpec × ℕ :=
      if byteAt fmt i0 = 45 ∨ byteAt fmt i0 = 43 ∨ byteAt fmt i0 = 32 then
        ({ spec0 with sign := byteAt fmt i0 }, i0 + 1)
      else (spec0, i0)
    let spec1 := signStep.1
    let i1 := signStep.2
    let zeroStep : FormatSpec × ℕ :=
      if byteAt fmt i1 = 48 then
        (if gotFill then spec1
          else { spec1 with fill := ⟨1, [48]⟩, align := 61 }, i1 + 1)
      else (spec1, i1)
    let spec2 := zeroStep.1
    let i2 := zeroStep.2
    let mwStep : Option (FormatSpec × ℕ) :=
      if isdigitB (byteAt fmt i2) then
        if byteAt fmt i2 = 48 then none
        else
          match parse_uint_wrap (fmt.length + 1) fmt (i2 + 1)
              (byteAt fmt i2 - 48) with
          | none => none
          | some (mw, j) => some ({ spec2 with min_width := mw }, j)
      else some (spec2, i2)
    match mwStep with
    | none => none
    | some (spec3, i3) =>
      let commaStep : FormatSpec × ℕ :=
        if byteAt fmt i3 = 44 then
          ({ spec3 with thousands_sep := ⟨1, [44]⟩ }, i3 + 1)
        else (spec3, i3)
      let spec4 := commaStep.1
      let i4 := commaStep.2
      let precStep : Option (FormatSpec × ℕ) :=
        if byteAt fmt i4 = 46 then
          if isdigitB (byteAt fmt (i4 + 1)) then
            match parse_uint_wrap (fmt.length + 1) fmt (i4 + 2)
                (byteAt fmt (i4 + 1) - 48) with
            | none => none
            | some (pr, j) => some ({ spec4 with precision := pr }, j)
          else none
        else some (spec4, i4)
      match precStep with
      | none => none
      | some (spec5, i5) =>
        let typeStep : FormatSpec × ℕ :=
          if byteAt fmt i5 = 102 ∨ byteAt fmt i5 = 70
              ∨ byteAt fmt i5 = 110 ∨ byteAt fmt i5 = 37 then
            ({ spec5 with type := byteAt fmt i5 }, i5 + 1)
          else (spec5, i5)
        if byteAt fmt typeStep.2 = 0 then some typeStep.1 else none

/-- Embedded from parse_format_spec, lines 132-136: a zero minimum width
discards the fill and alignment, resetting them to no fill and left
alignment. -/
def normalize_fill_align (spec : FormatSpec) : FormatSpec :=
  if spec.min_width = 0 then { spec with fill := no_fill, align := 60 }
  else spec

/-- Embedded from parse_format_spec, lines 138-160: for type n the locale
thousands separator, grouping vector and decimal point replace the parsed
ones, with length guards failing (none) as the C code returns -2. -/
def apply_locale (lc : Lconv) (spec : FormatSpec) : Option FormatSpec :=
  if spec.type = 110 then
    let step1 : Option FormatSpec :=
      if spec.thousands_sep.n_bytes ≠ 0 then
        let t := lc.thousands_sep.length
        if 4 < t then none
        else some { spec with thousands_sep :=
            ⟨t, if t = 0 then spec.thousands_sep.bytes else lc.thousands_sep⟩ }
      else some spec
    match step1 with
    | none => none
    | some s1 =>
      let tg := lc.grouping.length
      if 5 ≤ tg then none
      else
        let s2 := { s1 with grouping :=
          (List.range 5).map fun i =>
            if i < tg then lc.grouping.getD i 0
            else if i = tg then 0 else s1.grouping.getD i 0 }
        let td := lc.decimal_point.length
        if td = 0 ∨ 4 < td then none
        else some { s2 with decimal_point := ⟨td, lc.decimal_point⟩ }
  else some spec

/-- Embedded from parse_format_spec
(src/src/decimalfp/libfpdec/format_spec.c): field parsing, then the
zero-width fill/alignment normalization, then the locale adjustments. -/
def parse_format_spec (lc : Lconv) (fmt : List ℕ) : Option FormatSpec :=
  match parse_fields fmt with
  | none => none
  | some s => apply_locale lc (normalize_fill_align s)

theorem apply_locale_preserves (lc : Lconv) (s out : FormatSpec)
    (h : apply_locale lc s = some out) :
    out.fill = s.fill ∧ out.align = s.align ∧ out.min_width = s.min_width := by
  unfold apply_locale at h
  by_cases ht : s.type = 110
  · rw [if_pos ht] at h
    by_cases hts : s.thousands_sep.n_bytes ≠ 0
    · rw [if_pos hts] at h
      by_cases h4 : 4 < lc.thousands_sep.length
      · rw [if_pos h4] at h
        simp at h
      · rw [if_neg h4] at h
        simp only [] at h
        by_cases h5 : 5 ≤ lc.grouping.length
        · rw [if_pos h5] at h
          simp at h
        · rw [if_neg h5] at h
          by_cases hd : lc.decimal_point.length = 0 ∨ 4 < lc.decimal_point.length
          · rw [if_pos hd] at h
            simp at h
          · rw [if_neg hd] at h
            injection h with h
            subst h
            exact ⟨rfl, rfl, rfl⟩
    · rw [if_neg hts] at h
      simp only [] at h
      by_cases h5 : 5 ≤ lc.grouping.length
      · rw [if_pos h5] at h
        simp at h
      · rw [if_neg h5] at h
        by_cases hd : lc.decimal_point.length = 0 ∨ 4 < lc.decimal_point.length
        · rw [if_pos hd] at h
          simp at h
        · rw [if_neg hd] at h
          injection h with h
          subst h
          exact ⟨rfl, rfl, rfl⟩
  · rw [if_neg ht] at h
    injection h with h
    subst h
    exact ⟨rfl, rfl, rfl⟩

/-- C10: for every well-formed format specification whose minimum field
width is absent or zero, the parsed spec ends with an empty fill and left
alignment, discarding any fill character or alignment spelled in the
input. -/
theorem claim_C10_format_fill_align (lc : Lconv) (fmt : List ℕ)
    (spec : FormatSpec) (h : parse_format_spec lc fmt = some spec)
    (hmw : spec.min_width = 0) :
    spec.fill = no_fill ∧ spec.align = 60 := by
  unfold parse_format_spec at h
  cases hp : parse_fields fmt with
  | none => rw [hp] at h; cases h
  | some s0 =>
    rw [hp] at h
    obtain ⟨hfill, halign, hmw_eq⟩ := apply_locale_preserves lc _ spec h
    unfold normalize_fill_align at hfill halign hmw_eq
    by_cases h0 : s0.min_width = 0
    · rw [if_pos h0] at hfill halign
      exact ⟨hfill, halign⟩
    · rw [if_neg h0] at hmw_eq
      rw [hmw_eq] at hmw
      exact absurd hmw h0

theorem claim_C10_format_fill_align_witness :
    parse_format_spec ⟨[44], [3], [46]⟩ [42, 94]
        = some { DFLT_FORMAT with fill := no_fill, align := 60 }
    ∧ ({ DFLT_FORMAT with fill := no_fill, align := 60 } : FormatSpec).min_width
        = 0
    ∧ ({ DFLT_FORMAT with fill := no_fill, align := 60 } : FormatSpec).fill
        = no_fill
    ∧ ({ DFLT_FORMAT with fill := no_fill, align := 60 } : FormatSpec).align
        = 60 := by
  have hp : parse_format_spec ⟨[44], [3], [46]⟩ [42, 94]
      = some { DFLT_FORMAT with fill := no_fill, align := 60 } := by rfl
  exact ⟨hp, rfl,
    (claim_C10_format_fill_align ⟨[44], [3], [46]⟩ [42, 94] _ hp rfl).1,
    (claim_C10_format_fill_align ⟨[44], [3], [46]⟩ [42, 94] _ hp rfl).2⟩
